import Mathlib

/-!
Verification of the remote execution coordinator
(`backend/job_managers/remote_manual_agent.py`, class `RemoteManualAgentJobManager`).

The Python class is embedded shallowly: its mutable attributes become the fields
of `JMState`; each method becomes a function from states to a pair of a new
state and a list of observable `Event`s (upstream job reports and outgoing
remote calls).  Remote-transport behaviour that the code only observes through
exceptions is supplied as an explicit oracle argument.
-/

namespace RemoteManualAgent

/-- Job identifiers (the externally supplied `jobid` values). -/
abbrev JobId := Nat

/-- Result dictionaries handed to `_job_ended`: a `result` status string plus an
optional `text` entry (absent when the dictionary has no `text` key). -/
structure JobResult where
  result : String
  text : Option String
deriving DecidableEq, Repr

/-- Crash dictionary built in `_execute_job` when `_select_agent` returns `None`. -/
def noAgentCrash : JobResult :=
  ⟨"crash", some ("There are not any agent available for grading. Please retry later. " ++
    "If this error persists, please contact the course administrator.")⟩

/-- Crash dictionary built in `_agent_shutdown` for jobs running on a dead agent. -/
def remoteShutdownCrash : JobResult := ⟨"crash", some "Remote agent shutdown"⟩

/-- Snapshot of the task directory: association list from path to content hash,
standing for the dict returned by `directory_content_with_hash`. -/
abbrev Snapshot := List (String × String)

/-- Mutable attributes of `RemoteManualAgentJobManager`.  A slot of `agents` is
`true` exactly when `self._agents[i]` holds a live connection (`is not None`). -/
structure JMState where
  agents : List Bool
  nextAgent : Nat
  runningOnAgent : List (List JobId)
  lastContent : Snapshot
  closed : Bool
deriving DecidableEq, Repr

/-- Observable effects of the coordinator: upstream reports through
`AbstractJobManager._job_ended`, outgoing `new_job` remote calls, and task-dir
synchronisations started for an agent. -/
inductive Event where
  | jobEnded (jobid : JobId) (res : JobResult)
  | remoteNewJob (agentId : Nat) (jobid : JobId) (courseId taskId inputdata : String)
      (debug : Bool)
  | syncOne (agentId : Nat)
deriving DecidableEq, Repr

/-- Indices of the connected slots, in increasing order: the list comprehension
`[i for i, j in enumerate(self._agents) if j is not None]` in `_select_agent`. -/
def availableAgents (agents : List Bool) : List Nat :=
  (List.range agents.length).filter (fun i => agents.getD i false)

/-- Embedding of `_select_agent`: round-robin over the available slots.  When no
slot is available the method returns `None` before touching `self._next_agent`;
otherwise it indexes the available list by the cursor modulo its length and then
increments the cursor. -/
def selectAgent (s : JMState) : Option Nat × JMState :=
  let av := availableAgents s.agents
  if av.length = 0 then (none, s)
  else (av[s.nextAgent % av.length]?, { s with nextAgent := s.nextAgent + 1 })

/-- Iterated calls to `_select_agent`, collecting the returned slot of each call. -/
def selectCalls : Nat → JMState → List (Option Nat) × JMState
  | 0, s => ([], s)
  | n + 1, s =>
    let r := selectAgent s
    let rest := selectCalls n r.2
    (r.1 :: rest.1, rest.2)

/-- Number of connected slots, measured as the length of the available list. -/
def countConnected (agents : List Bool) : Nat := (availableAgents agents).length

theorem mem_availableAgents {agents : List Bool} {i : Nat} :
    i ∈ availableAgents agents ↔ i < agents.length ∧ agents.getD i false = true := by
  simp [availableAgents, List.mem_filter, List.mem_range]

theorem availableAgents_nodup (agents : List Bool) : (availableAgents agents).Nodup :=
  (List.nodup_range _).filter _

theorem availableAgents_of_all_false {agents : List Bool}
    (h : ∀ b ∈ agents, b = false) : availableAgents agents = [] := by
  apply List.filter_eq_nil_iff.mpr
  intro i _
  by_cases hi : i < agents.length
  · have hmem : agents[i] ∈ agents := List.getElem_mem hi
    simp [List.getD_eq_getElem?_getD, List.getElem?_eq_getElem hi, h _ hmem]
  · simp [List.getD_eq_getElem?_getD, List.getElem?_eq_none (Nat.le_of_not_lt hi)]

theorem selectAgent_of_empty {s : JMState} (h : availableAgents s.agents = []) :
    selectAgent s = (none, s) := by
  simp [selectAgent, h]

theorem selectAgent_of_nonempty {s : JMState} (h : availableAgents s.agents ≠ []) :
    selectAgent s =
      ((availableAgents s.agents)[s.nextAgent % (availableAgents s.agents).length]?,
        { s with nextAgent := s.nextAgent + 1 }) := by
  have hlen : (availableAgents s.agents).length ≠ 0 := by
    simpa [List.length_eq_zero] using h
  simp [selectAgent, hlen]

/-- Frame of `_select_agent`: only the cursor is ever written. -/
theorem selectAgent_frame (s : JMState) :
    (selectAgent s).2.agents = s.agents ∧
    (selectAgent s).2.runningOnAgent = s.runningOnAgent ∧
    (selectAgent s).2.lastContent = s.lastContent ∧
    (selectAgent s).2.closed = s.closed := by
  by_cases h : availableAgents s.agents = []
  · simp [selectAgent_of_empty h]
  · simp [selectAgent_of_nonempty h]

theorem selectAgent_fst_some {s : JMState} {a : Nat}
    (h : (selectAgent s).1 = some a) : a ∈ availableAgents s.agents := by
  by_cases hav : availableAgents s.agents = []
  · simp [selectAgent_of_empty hav] at h
  · rw [selectAgent_of_nonempty hav] at h
    exact List.getElem?_mem h

theorem selectAgent_some_getD {s : JMState} {a : Nat}
    (h : (selectAgent s).1 = some a) : s.agents.getD a false = true :=
  (mem_availableAgents.mp (selectAgent_fst_some h)).2

theorem getD_set_self {α : Type} (l : List α) (a : Nat) (v : α) :
    (l.set a v).getD a v = v := by
  by_cases h : a < l.length
  · simp [List.getD_eq_getElem?_getD, List.getElem?_set, h]
  · rw [List.set_eq_of_length_le (Nat.le_of_not_lt h)]
    simp [List.getD_eq_getElem?_getD, List.getElem?_eq_none (Nat.le_of_not_lt h)]

theorem availableAgents_set_false (l : List Bool) (a : Nat) :
    availableAgents (l.set a false) =
      (availableAgents l).filter (fun i => !(i == a)) := by
  unfold availableAgents
  rw [List.length_set, List.filter_filter]
  apply List.filter_congr
  intro i _
  by_cases hia : i = a
  · subst hia
    by_cases hl : i < l.length
    · simp [List.getD_eq_getElem?_getD, List.getElem?_set, hl]
    · rw [List.set_eq_of_length_le (Nat.le_of_not_lt hl)]
      simp [List.getD_eq_getElem?_getD, List.getElem?_eq_none (Nat.le_of_not_lt hl)]
  · simp [List.getD_eq_getElem?_getD, List.getElem?_set_ne hia, Ne.symm hia, hia]

theorem countConnected_set_false {l : List Bool} {a : Nat}
    (h : l.getD a false = true) :
    countConnected (l.set a false) < countConnected l := by
  have ha : a < l.length := by
    by_contra hlt
    rw [List.getD_eq_getElem?_getD, List.getElem?_eq_none (Nat.le_of_not_lt hlt)] at h
    simp at h
  have hmem : a ∈ availableAgents l := mem_availableAgents.mpr ⟨ha, h⟩
  unfold countConnected
  rw [availableAgents_set_false]
  exact List.length_filter_lt_length_iff_exists.mpr ⟨a, hmem, by simp⟩

/-- Embedding of the statement in `_agent_shutdown` that maps `_job_ended` over
`self._running_on_agent[agent_id]`.  A Python 2 `map` drives a list iterator
that re-checks the list length at each step, while every `_job_ended` call
removes (`list.remove`, first occurrence) the reported job from the very list
being iterated, so the index `i` advances over a list that shrinks under it.
`l` is the current list contents.  The fuel argument only makes the recursion
structural: `l.length` steps always suffice because every step shortens `l`. -/
def shutdownReports : Nat → List JobId → Nat → List Event
  | 0, _, _ => []
  | fuel + 1, l, i =>
    if h : i < l.length then
      Event.jobEnded (l.get ⟨i, h⟩) remoteShutdownCrash ::
        shutdownReports fuel (l.erase (l.get ⟨i, h⟩)) (i + 1)
    else []

/-- Embedding of `_agent_shutdown`: crash results are reported by the mutating
iteration `shutdownReports`; then the connection is dropped and the running
list of the slot is reset to `[]`. -/
def agentShutdown (s : JMState) (a : Nat) : JMState × List Event :=
  ({ s with agents := s.agents.set a false,
            runningOnAgent := s.runningOnAgent.set a [] },
    shutdownReports (s.runningOnAgent.getD a []).length (s.runningOnAgent.getD a []) 0)

/-- Embedding of the overridden `_job_ended`: with an agent id the job is
removed from that slot's running list; the result is then reported upstream
through `AbstractJobManager._job_ended`, recorded as a `jobEnded` event.
Removal is by first occurrence, like `list.remove`; the `ValueError` that
`list.remove` raises for an id not in the list is outside the model (the
coordinator removes only ids it recorded). -/
def jobEndedOp (s : JMState) (j : JobId) (r : JobResult) (agentId : Option Nat) :
    JMState × List Event :=
  match agentId with
  | some a =>
      ({ s with runningOnAgent :=
          s.runningOnAgent.set a ((s.runningOnAgent.getD a []).erase j) },
        [Event.jobEnded j r])
  | none => (s, [Event.jobEnded j r])

/-- Embedding of `_execute_job`.  The oracle `fails a` tells whether issuing the
asynchronous `new_job` call on slot `a` raises a transport-level exception (the
`except` branch of the source); in that case the slot is shut down and the
whole submission is retried with the same arguments, exactly like the recursive
call in the source.  Termination of the model follows from each failing retry
disconnecting one more slot. -/
def executeJob (fails : Nat → Bool) (jobid : JobId)
    (courseId taskId inputdata : String) (debug : Bool) (s : JMState) :
    JMState × List Event :=
  match h : selectAgent s with
  | (none, s1) => jobEndedOp s1 jobid noAgentCrash none
  | (some a, s1) =>
    if fails a then
      let p := agentShutdown s1 a
      let q := executeJob fails jobid courseId taskId inputdata debug p.1
      (q.1, p.2 ++ q.2)
    else
      ({ s1 with runningOnAgent :=
          s1.runningOnAgent.set a ((s1.runningOnAgent.getD a []) ++ [jobid]) },
        [Event.remoteNewJob a jobid courseId taskId inputdata debug])
termination_by countConnected s.agents
decreasing_by
  simp only [agentShutdown]
  have hfst : (selectAgent s).1 = some a := by rw [h]
  have hagents : s1.agents = s.agents := by
    have hframe := (selectAgent_frame s).1
    rw [h] at hframe
    exact hframe
  rw [hagents]
  exact countConnected_set_false (selectAgent_some_getD hfst)

/-- Result of an asynchronous rpyc call as observed by its completion callback:
an error flag plus, when there was no error, the returned value. -/
structure AsyncValue where
  error : Bool
  value : JobResult
deriving DecidableEq, Repr

/-- Embedding of `_execute_job_callback`: an application-level error on the
agent produces a bare crash dictionary carrying no `text` entry; otherwise the
returned value is reported unchanged.  Both paths go through `_job_ended` with
the agent id, so the job leaves the slot's running list before the report. -/
def executeJobCallback (s : JMState) (jobid : JobId) (ret : AsyncValue) (a : Nat) :
    JMState × List Event :=
  if ret.error then jobEndedOp s jobid ⟨"crash", none⟩ (some a)
  else jobEndedOp s jobid ret.value (some a)

/-- Modelled from the spec: `directory_compare_from_hash` is imported from
`common.base`, which is not part of the excerpt.  Per the spec, `changed` is
the list of paths present in `current` whose hash differs from `baseline` or
that are absent from `baseline`, and `deleted` the list of paths present in
`baseline` but absent from `current`.  Snapshots are dict-like association
lists from path to content hash. -/
def directoryCompareFromHash (current baseline : Snapshot) :
    List String × List String :=
  ((current.filter (fun pr => !(baseline.lookup pr.1 == some pr.2))).map Prod.fst,
   (baseline.filter (fun pr => (current.lookup pr.1).isNone)).map Prod.fst)

/-- Embedding of `_try_synchronize_task_dir`.  The argument `current` stands
for the fresh snapshot `directory_content_with_hash(get_tasks_directory())`
read from disk at the start of the cycle. -/
def trySynchronizeTaskDir (current : Snapshot) (s : JMState) : JMState × List Event :=
  if s.closed then (s, [])
  else if (directoryCompareFromHash current s.lastContent).1.length ≠ 0 ∨
      (directoryCompareFromHash current s.lastContent).2.length ≠ 0 then
    ({ s with lastContent := current }, (availableAgents s.agents).map Event.syncOne)
  else (s, [])

/-- Invariant: a job id appears in the running list of at most one slot. -/
def DisjointSlots (R : List (List JobId)) : Prop :=
  ∀ i j jid, jid ∈ R.getD i [] → jid ∈ R.getD j [] → i = j

/-- Invariant: no slot's running list mentions a job id twice. -/
def NodupSlots (R : List (List JobId)) : Prop := ∀ l ∈ R, l.Nodup

/-- A job id that is not currently recorded as running on any slot. -/
def FreshJob (j : JobId) (R : List (List JobId)) : Prop := ∀ l ∈ R, j ∉ l

/-- Dispatcher and fault-recovery operations on the coordinator state.  A
submission (`exec`) carries a job id that is not already recorded as running,
matching the Job lifecycle of the spec: a job id enters the bookkeeping at
dispatch and leaves it when its result is reported. -/
inductive Step : JMState → JMState → Prop
  | exec (fails : Nat → Bool) (j : JobId) (courseId taskId inputdata : String)
      (d : Bool) (s : JMState) (hj : FreshJob j s.runningOnAgent) :
      Step s (executeJob fails j courseId taskId inputdata d s).1
  | callback (s : JMState) (j : JobId) (ret : AsyncValue) (a : Nat) :
      Step s (executeJobCallback s j ret a).1
  | ended (s : JMState) (j : JobId) (r : JobResult) (agentId : Option Nat) :
      Step s (jobEndedOp s j r agentId).1
  | shutdown (s : JMState) (a : Nat) : Step s (agentShutdown s a).1
  | select (s : JMState) : Step s (selectAgent s).2

/-- Python strings, as handled by the path checks, modelled as character lists. -/
abbrev PStr := List Char

/-- Test for `s.startswith("/")`, the absolute-path test of `posixpath`. -/
def isAbs : PStr → Bool
  | [] => false
  | c :: _ => c == '/'

/-- Test for `s.endswith("/")`. -/
def endsWithSlash : PStr → Bool
  | [] => false
  | [c] => c == '/'
  | _ :: rest => endsWithSlash rest

/-- Embedding of the two-argument `posixpath.join`: an absolute second path
replaces the first, otherwise a separator is inserted unless the first path is
empty or already ends with one. -/
def pathJoin2 (a b : PStr) : PStr :=
  if isAbs b then b
  else if a = [] ∨ endsWithSlash a = true then a ++ b
  else a ++ '/' :: b

/-- Embedding of `s.split("/")`. -/
def splitSlash : PStr → List PStr
  | [] => [[]]
  | c :: rest =>
    if c = '/' then [] :: splitSlash rest
    else (c :: (splitSlash rest).headD []) :: (splitSlash rest).tail

/-- Normalisation loop of `posixpath.normpath` for an absolute path: empty and
dot components vanish, a `..` component pops the previous component and is
dropped at the root.  The accumulator plays the role of `new_comps`; for an
absolute path the source never appends `..`, so popping is unconditional. -/
def normComps (comps : List PStr) : List PStr :=
  comps.foldl
    (fun acc c =>
      if c = [] ∨ c = ['.'] then acc
      else if c = ['.', '.'] then acc.dropLast
      else acc ++ [c]) []

/-- Component lists `[x for x in abspath(p).split("/") if x]` used by
`relpath`, with `abspath(p) = normpath(join(cwd, p))` for the working
directory `cwd` (an absolute path).  For an absolute argument, `normpath`
produces exactly the slash-joined `normComps` components, all nonempty, so
splitting its output and dropping empty strings returns those components. -/
def absComps (cwd p : PStr) : List PStr :=
  normComps (splitSlash (pathJoin2 cwd p))

/-- Length of `commonprefix([start_list, path_list])`. -/
def commonPrefixLen : List PStr → List PStr → Nat
  | a :: la, b :: lb => if a = b then commonPrefixLen la lb + 1 else 0
  | _, _ => 0

/-- Embedding of `join(*rel_list)`: left fold of the two-argument join. -/
def joinAll : List PStr → PStr
  | [] => []
  | c :: cs => cs.foldl pathJoin2 c

/-- Embedding of `posixpath.relpath(path, start)` with the working directory
made explicit.  The `ValueError` that the source raises on an empty `path`
argument is outside the model. -/
def relpath (cwd p start : PStr) : PStr :=
  let sl := absComps cwd start
  let pl := absComps cwd p
  let i := commonPrefixLen sl pl
  let rel := List.replicate (sl.length - i) ['.', '.'] ++ pl.drop i
  if rel = [] then ['.'] else joinAll rel

/-- Occurrence of the substring `..`, the check `".." in path`. -/
def hasDotDot : PStr → Bool
  | [] => false
  | [_] => false
  | c1 :: c2 :: rest => (c1 = '.' && c2 = '.') || hasDotDot (c2 :: rest)

/-- Safety check of `_synchronize_task_dir_p2` on a path reported by the agent:
`os.path.relpath(os.path.join(get_tasks_directory(), path), get_tasks_directory())
== path and ".." not in path`, with `root` standing for `get_tasks_directory()`
and `cwd` for the working directory. -/
def isSafePath (cwd root path : PStr) : Bool :=
  (relpath cwd (pathJoin2 root path) root == path) && !(hasDotDot path)

/-- Embedding of the archive loop of `_synchronize_task_dir_p2`: paths passing
the check are added to the tar archive, the others are skipped with a printed
warning; the archive is always produced.  Returns the archive entries and the
warned paths, both in traversal order. -/
def buildArchive (cwd root : PStr) (toUpdate : List PStr) : List PStr × List PStr :=
  (toUpdate.filter (isSafePath cwd root),
    toUpdate.filter (fun p => !(isSafePath cwd root p)))

/-- Following the wording of the claim, for comparison with the code's check:
a path escapes the task root when it is absolute or contains a
parent-directory component `..`; for a relative path these are the only ways
resolution against the root can leave it. -/
def specEscapesRoot (p : PStr) : Bool :=
  isAbs p || (splitSlash p).contains ['.', '.']

/-- Results of `n` successive calls, written as a window over the cursor. -/
theorem selectCalls_fst {agents : List Bool} (hne : availableAgents agents ≠ []) :
    ∀ (n : Nat) (s : JMState), s.agents = agents →
      (selectCalls n s).1 =
        (List.range n).map (fun k =>
          (availableAgents agents)[(s.nextAgent + k) % (availableAgents agents).length]?) ∧
      (selectCalls n s).2.agents = agents := by
  intro n
  induction n with
  | zero => intro s hs; simp [selectCalls, hs]
  | succ n ih =>
    intro s hs
    have hne' : availableAgents s.agents ≠ [] := by rw [hs]; exact hne
    have hsel := selectAgent_of_nonempty hne'
    have ih' := ih { s with nextAgent := s.nextAgent + 1 } hs
    constructor
    · show (selectAgent s).1 :: (selectCalls n (selectAgent s).2).1 = _
      rw [hsel]
      simp only [ih'.1, List.range_succ_eq_map, List.map_cons, List.map_map]
      refine congrArg₂ _ (by simp [hs]) ?_
      apply List.map_congr_left
      intro k _
      simp only [Function.comp_apply, hs]
      have harg : s.nextAgent + Nat.succ k = s.nextAgent + 1 + k := by omega
      rw [harg]
    · show (selectCalls n (selectAgent s).2).2.agents = agents
      rw [hsel]
      exact ih'.2

/-- Window of modular reads of a nonempty list, identified with a rotation. -/
theorem window_eq_rotate {l : List Nat} (hne : l ≠ []) (c : Nat) :
    (List.range l.length).map (fun k => l[(c + k) % l.length]?) =
      (l.rotate c).map some := by
  have hpos : 0 < l.length := List.length_pos.mpr hne
  apply List.ext_getElem?
  intro k
  by_cases hk : k < l.length
  · have hk' : k < (List.range l.length).length := by simpa using hk
    rw [List.getElem?_map, List.getElem?_map, List.getElem?_eq_getElem hk']
    simp only [List.getElem_range, Option.map_some']
    rw [List.getElem?_rotate hk]
    have harg : (k + c) % l.length = (c + k) % l.length := by rw [Nat.add_comm]
    rw [harg, List.getElem?_eq_getElem (Nat.mod_lt _ hpos)]
    simp
  · have h1 : ((List.range l.length).map
        (fun k => l[(c + k) % l.length]?)).length ≤ k := by
      simpa using Nat.le_of_not_lt hk
    have h2 : ((l.rotate c).map some).length ≤ k := by
      simpa [List.length_rotate] using Nat.le_of_not_lt hk
    rw [List.getElem?_eq_none h1, List.getElem?_eq_none h2]

theorem lookup_eq_some_of_nodup :
    ∀ {l : Snapshot}, (l.map Prod.fst).Nodup → ∀ (p h : String),
      ((p, h) ∈ l ↔ l.lookup p = some h)
  | [], _, p, h => by simp
  | (k, v) :: t, hn, p, h => by
    rw [List.map_cons, List.nodup_cons] at hn
    obtain ⟨hk, ht⟩ := hn
    by_cases hpk : p = k
    · subst hpk
      have hnt : (p, h) ∉ t := fun hmem => hk (List.mem_map.mpr ⟨(p, h), hmem, rfl⟩)
      simp only [List.mem_cons, List.lookup_cons, beq_self_eq_true]
      constructor
      · rintro (heq | hmem)
        · cases heq; rfl
        · exact absurd hmem hnt
      · intro hv
        left
        have : v = h := by simpa using hv
        rw [this]
    · have hbeq : (p == k) = false := beq_false_of_ne hpk
      simp only [List.mem_cons, List.lookup_cons, hbeq]
      rw [← lookup_eq_some_of_nodup ht p h]
      constructor
      · rintro (heq | hmem)
        · exact absurd (congrArg Prod.fst heq) hpk
        · exact hmem
      · exact Or.inr

theorem getD_set_ite {α : Type} (ls : List α) (a i : Nat) (v d : α) :
    (ls.set a v).getD i d = if a = i ∧ a < ls.length then v else ls.getD i d := by
  rw [List.getD_eq_getElem?_getD, List.getElem?_set]
  by_cases h1 : a = i
  · subst h1
    by_cases h2 : a < ls.length
    · simp [h2]
    · simp [h2, List.getD_eq_getElem?_getD,
        List.getElem?_eq_none (Nat.le_of_not_lt h2)]
  · simp [h1, List.getD_eq_getElem?_getD]

theorem exists_mem_of_mem_getD {R : List (List JobId)} {i : Nat} {x : JobId}
    (h : x ∈ R.getD i []) : ∃ l ∈ R, x ∈ l := by
  by_cases hi : i < R.length
  · refine ⟨R[i], List.getElem_mem hi, ?_⟩
    rw [List.getD_eq_getElem?_getD, List.getElem?_eq_getElem hi] at h
    simpa using h
  · rw [List.getD_eq_getElem?_getD, List.getElem?_eq_none (Nat.le_of_not_lt hi)] at h
    simp at h

theorem nodup_getD {R : List (List JobId)} (h : NodupSlots R) (a : Nat) :
    (R.getD a []).Nodup := by
  by_cases ha : a < R.length
  · rw [List.getD_eq_getElem?_getD, List.getElem?_eq_getElem ha]
    exact h _ (List.getElem_mem ha)
  · rw [List.getD_eq_getElem?_getD, List.getElem?_eq_none (Nat.le_of_not_lt ha)]
    simp

theorem mem_getD_of_mem_set {R : List (List JobId)} {a : Nat} {v : List JobId}
    (hv : ∀ x ∈ v, x ∈ R.getD a []) {i : Nat} {jid : JobId}
    (hi : jid ∈ (R.set a v).getD i []) : jid ∈ R.getD i [] := by
  rw [getD_set_ite] at hi
  split_ifs at hi with h1
  · obtain ⟨rfl, _⟩ := h1
    exact hv _ hi
  · exact hi

theorem disjointSlots_set_subset {R : List (List JobId)} (h : DisjointSlots R)
    {a : Nat} {v : List JobId} (hv : ∀ x ∈ v, x ∈ R.getD a []) :
    DisjointSlots (R.set a v) := by
  intro i j jid hi hj
  exact h i j jid (mem_getD_of_mem_set hv hi) (mem_getD_of_mem_set hv hj)

theorem nodupSlots_set {R : List (List JobId)} (h : NodupSlots R) {v : List JobId}
    (hv : v.Nodup) (a : Nat) : NodupSlots (R.set a v) := by
  intro l hl
  rcases List.mem_or_eq_of_mem_set hl with hmem | rfl
  · exact h l hmem
  · exact hv

theorem freshJob_set_subset {R : List (List JobId)} {j : JobId} (h : FreshJob j R)
    {a : Nat} {v : List JobId} (hv : ∀ x ∈ v, x ∈ R.getD a []) :
    FreshJob j (R.set a v) := by
  intro l hl hj
  rcases List.mem_or_eq_of_mem_set hl with hmem | rfl
  · exact h l hmem hj
  · obtain ⟨l', hl', hjl'⟩ := exists_mem_of_mem_getD (hv _ hj)
    exact h l' hl' hjl'

theorem disjointSlots_append_fresh {R : List (List JobId)} (h : DisjointSlots R)
    {j : JobId} (hj : FreshJob j R) (a : Nat) :
    DisjointSlots (R.set a (R.getD a [] ++ [j])) := by
  intro i i' jid hi hi'
  by_cases hjid : jid = j
  · rw [hjid] at hi hi'
    have hforce : ∀ k, j ∈ (R.set a (R.getD a [] ++ [j])).getD k [] → a = k := by
      intro k hk
      rw [getD_set_ite] at hk
      split_ifs at hk with h1
      · exact h1.1
      · obtain ⟨l, hl, hjl⟩ := exists_mem_of_mem_getD hk
        exact absurd hjl (hj l hl)
    rw [← hforce i hi, ← hforce i' hi']
  · have hmem : ∀ k, jid ∈ (R.set a (R.getD a [] ++ [j])).getD k [] →
        jid ∈ R.getD k [] := by
      intro k hk
      rw [getD_set_ite] at hk
      split_ifs at hk with h1
      · obtain ⟨rfl, _⟩ := h1
        rcases List.mem_append.mp hk with hk' | hk'
        · exact hk'
        · simp at hk'
          exact absurd hk' hjid
      · exact hk
    exact h i i' jid (hmem i hi) (hmem i' hi')

theorem nodupSlots_append_fresh {R : List (List JobId)} (h : NodupSlots R)
    {j : JobId} (hj : FreshJob j R) (a : Nat) :
    NodupSlots (R.set a (R.getD a [] ++ [j])) := by
  intro l hl
  rcases List.mem_or_eq_of_mem_set hl with hmem | rfl
  · exact h l hmem
  · rw [List.nodup_append]
    refine ⟨nodup_getD h a, List.nodup_singleton j, ?_⟩
    intro x hx hx'
    have hxj : x = j := by simpa using hx'
    subst hxj
    obtain ⟨l', hl', hjl'⟩ := exists_mem_of_mem_getD hx
    exact hj l' hl' hjl'

theorem jobEndedOp_preserves {s : JMState} (hd : DisjointSlots s.runningOnAgent)
    (hnd : NodupSlots s.runningOnAgent) (j : JobId) (r : JobResult)
    (agentId : Option Nat) :
    DisjointSlots (jobEndedOp s j r agentId).1.runningOnAgent ∧
    NodupSlots (jobEndedOp s j r agentId).1.runningOnAgent := by
  match agentId with
  | none => exact ⟨hd, hnd⟩
  | some a =>
    have hsub : ∀ x ∈ (s.runningOnAgent.getD a []).erase j,
        x ∈ s.runningOnAgent.getD a [] := fun x hx => List.erase_subset _ _ hx
    exact ⟨disjointSlots_set_subset hd hsub,
      nodupSlots_set hnd ((nodup_getD hnd a).erase j) a⟩

theorem agentShutdown_preserves {s : JMState} (hd : DisjointSlots s.runningOnAgent)
    (hnd : NodupSlots s.runningOnAgent) (a : Nat) :
    DisjointSlots (agentShutdown s a).1.runningOnAgent ∧
    NodupSlots (agentShutdown s a).1.runningOnAgent := by
  refine ⟨disjointSlots_set_subset hd (by simp), nodupSlots_set hnd (by simp) a⟩

theorem executeJob_preserves_running (fails : Nat → Bool) (jobid : JobId)
    (courseId taskId inputdata : String) (d : Bool) :
    ∀ (n : Nat) (s : JMState), countConnected s.agents ≤ n →
      DisjointSlots s.runningOnAgent → NodupSlots s.runningOnAgent →
      FreshJob jobid s.runningOnAgent →
      DisjointSlots (executeJob fails jobid courseId taskId inputdata d s).1.runningOnAgent ∧
      NodupSlots (executeJob fails jobid courseId taskId inputdata d s).1.runningOnAgent := by
  intro n
  induction n with
  | zero =>
    intro s hn hd hnd hf
    have hav : availableAgents s.agents = [] := by
      have hz := Nat.le_zero.mp hn
      rwa [countConnected, List.length_eq_zero] at hz
    rw [executeJob.eq_def]
    split
    · next s1 heq =>
      have hrun : s1.runningOnAgent = s.runningOnAgent := by
        have hfr := (selectAgent_frame s).2.1
        rw [heq] at hfr
        exact hfr
      simp only [jobEndedOp, hrun]
      exact ⟨hd, hnd⟩
    · next a s1 heq =>
      rw [selectAgent_of_empty hav] at heq
      cases heq
  | succ n ih =>
    intro s hn hd hnd hf
    rw [executeJob.eq_def]
    split
    · next s1 heq =>
      have hrun : s1.runningOnAgent = s.runningOnAgent := by
        have hfr := (selectAgent_frame s).2.1
        rw [heq] at hfr
        exact hfr
      simp only [jobEndedOp, hrun]
      exact ⟨hd, hnd⟩
    · next a s1 heq =>
      have hrun : s1.runningOnAgent = s.runningOnAgent := by
        have hfr := (selectAgent_frame s).2.1
        rw [heq] at hfr
        exact hfr
      have hag : s1.agents = s.agents := by
        have hfr := (selectAgent_frame s).1
        rw [heq] at hfr
        exact hfr
      have hfst : (selectAgent s).1 = some a := by rw [heq]
      by_cases hfail : fails a = true
      · simp only [hfail, if_true]
        apply ih
        · have hlt : countConnected (s1.agents.set a false) < countConnected s.agents := by
            rw [hag]
            exact countConnected_set_false (selectAgent_some_getD hfst)
          have : countConnected (agentShutdown s1 a).1.agents =
              countConnected (s1.agents.set a false) := rfl
          omega
        · exact (agentShutdown_preserves (hrun ▸ hd) (hrun ▸ hnd) a).1
        · exact (agentShutdown_preserves (hrun ▸ hd) (hrun ▸ hnd) a).2
        · show FreshJob jobid (s1.runningOnAgent.set a [])
          rw [hrun]
          exact freshJob_set_subset hf (by simp)
      · simp only [hfail, if_false]
        rw [hrun]
        exact ⟨disjointSlots_append_fresh hd hf a, nodupSlots_append_fresh hnd hf a⟩

theorem step_preserves {s s' : JMState} (hstep : Step s s')
    (hd : DisjointSlots s.runningOnAgent) (hnd : NodupSlots s.runningOnAgent) :
    DisjointSlots s'.runningOnAgent ∧ NodupSlots s'.runningOnAgent := by
  cases hstep with
  | exec fails j courseId taskId inputdata d s hj =>
    exact executeJob_preserves_running fails j courseId taskId inputdata d
      (countConnected s.agents) s (Nat.le_refl _) hd hnd hj
  | callback s j ret a =>
    unfold executeJobCallback
    by_cases herr : ret.error = true
    · simp only [herr, if_true]
      exact jobEndedOp_preserves hd hnd j ⟨"crash", none⟩ (some a)
    · simp only [herr, if_false]
      exact jobEndedOp_preserves hd hnd j ret.value (some a)
  | ended s j r agentId => exact jobEndedOp_preserves hd hnd j r agentId
  | shutdown s a => exact agentShutdown_preserves hd hnd a
  | select s =>
    rw [(selectAgent_frame s).2.1]
    exact ⟨hd, hnd⟩

theorem shutdownReports_fuel :
    ∀ (fuel fuel' : Nat) (l : List JobId) (i : Nat),
      l.length - i ≤ fuel → l.length - i ≤ fuel' →
      shutdownReports fuel l i = shutdownReports fuel' l i := by
  intro fuel
  induction fuel with
  | zero =>
    intro fuel' l i hf hf'
    have hle : l.length ≤ i := by omega
    cases fuel' with
    | zero => rfl
    | succ n =>
      rw [shutdownReports, shutdownReports]
      rw [dif_neg (Nat.not_lt.mpr hle)]
  | succ m ih =>
    intro fuel' l i hf hf'
    cases fuel' with
    | zero =>
      have hle : l.length ≤ i := by omega
      rw [shutdownReports, shutdownReports]
      rw [dif_neg (Nat.not_lt.mpr hle)]
    | succ n =>
      rw [shutdownReports, shutdownReports]
      by_cases hi : i < l.length
      · rw [dif_pos hi, dif_pos hi]
        have hmem : l.get ⟨i, hi⟩ ∈ l := List.get_mem l i hi
        have hlen : (l.erase (l.get ⟨i, hi⟩)).length = l.length - 1 :=
          List.length_erase_of_mem hmem
        have h1 : (l.erase (l.get ⟨i, hi⟩)).length - (i + 1) ≤ m := by omega
        have h2 : (l.erase (l.get ⟨i, hi⟩)).length - (i + 1) ≤ n := by omega
        rw [ih n _ _ h1 h2]
      · rw [dif_neg hi, dif_neg hi]

theorem shutdownReports_length :
    ∀ (fuel : Nat) (l : List JobId) (i : Nat), l.length - i ≤ fuel →
      (shutdownReports fuel l i).length = (l.length - i + 1) / 2 := by
  intro fuel
  induction fuel with
  | zero =>
    intro l i hf
    have : l.length - i = 0 := by omega
    rw [this]
    rfl
  | succ m ih =>
    intro l i hf
    rw [shutdownReports]
    by_cases hi : i < l.length
    · rw [dif_pos hi]
      have hmem : l.get ⟨i, hi⟩ ∈ l := List.get_mem l i hi
      have hlen : (l.erase (l.get ⟨i, hi⟩)).length = l.length - 1 :=
        List.length_erase_of_mem hmem
      rw [List.length_cons, ih _ _ (by omega)]
      omega
    · rw [dif_neg hi]
      have : l.length - i = 0 := by omega
      rw [this]
      rfl

theorem splitSlash_ne_nil : ∀ p : PStr, splitSlash p ≠ []
  | [] => by simp [splitSlash]
  | c :: rest => by
    simp only [splitSlash]
    split <;> simp

theorem headD_mem_splitSlash (p : PStr) : (splitSlash p).headD [] ∈ splitSlash p := by
  cases hsp : splitSlash p with
  | nil => exact absurd hsp (splitSlash_ne_nil p)
  | cons a l => simp

theorem prefix_headD_splitSlash : ∀ p : PStr, (splitSlash p).headD [] <+: p
  | [] => by simp [splitSlash]
  | c :: rest => by
    simp only [splitSlash]
    by_cases hc : c = '/'
    · rw [if_pos hc]
      simp
    · rw [if_neg hc]
      simp only [List.headD_cons]
      exact List.cons_prefix_cons.mpr ⟨rfl, prefix_headD_splitSlash rest⟩

theorem infix_of_mem_splitSlash : ∀ (p : PStr) (c : PStr), c ∈ splitSlash p → c <:+: p
  | [], c, h => by
    simp [splitSlash] at h
    subst h
    exact List.nil_infix
  | ch :: rest, c, h => by
    simp only [splitSlash] at h
    by_cases hc : ch = '/'
    · rw [if_pos hc] at h
      rcases List.mem_cons.mp h with rfl | hmem
      · exact List.nil_infix
      · exact List.infix_cons (infix_of_mem_splitSlash rest c hmem)
    · rw [if_neg hc] at h
      rcases List.mem_cons.mp h with rfl | hmem
      · exact (List.cons_prefix_cons.mpr ⟨rfl, prefix_headD_splitSlash rest⟩).isInfix
      · exact List.infix_cons (infix_of_mem_splitSlash rest c (List.tail_subset _ hmem))

theorem mem_splitSlash_no_slash : ∀ (p : PStr) (c : PStr), c ∈ splitSlash p → '/' ∉ c
  | [], c, h => by
    simp [splitSlash] at h
    subst h
    simp
  | ch :: rest, c, h => by
    simp only [splitSlash] at h
    by_cases hc : ch = '/'
    · rw [if_pos hc] at h
      rcases List.mem_cons.mp h with rfl | hmem
      · simp
      · exact mem_splitSlash_no_slash rest c hmem
    · rw [if_neg hc] at h
      rcases List.mem_cons.mp h with rfl | hmem
      · intro hsl
        rcases List.mem_cons.mp hsl with heq | hmem2
        · exact hc heq.symm
        · exact mem_splitSlash_no_slash rest _ (headD_mem_splitSlash rest) hmem2
      · exact mem_splitSlash_no_slash rest c (List.tail_subset _ hmem)

theorem hasDotDot_iff : ∀ p : PStr, hasDotDot p = true ↔ ['.', '.'] <:+: p
  | [] => by simp [hasDotDot, List.infix_nil]
  | [c] => by
    constructor
    · intro h
      simp [hasDotDot] at h
    · intro h
      have hlen := h.length_le
      simp at hlen
  | c1 :: c2 :: rest => by
    rw [hasDotDot, List.infix_cons_iff]
    constructor
    · intro h
      rcases Bool.or_eq_true_iff.mp h with h1 | h2
      · left
        have hc : c1 = '.' ∧ c2 = '.' := by simpa using h1
        exact List.cons_prefix_cons.mpr ⟨hc.1.symm,
          List.cons_prefix_cons.mpr ⟨hc.2.symm, List.nil_prefix⟩⟩
      · right
        exact (hasDotDot_iff (c2 :: rest)).mp h2
    · intro h
      rcases h with hpre | hinf
      · obtain ⟨h1, hrest⟩ := List.cons_prefix_cons.mp hpre
        obtain ⟨h2, _⟩ := List.cons_prefix_cons.mp hrest
        simp [h1.symm, h2.symm]
      · have := (hasDotDot_iff (c2 :: rest)).mpr hinf
        simp [this]

theorem foldl_normStep_good :
    ∀ (comps : List PStr) (acc : List PStr),
      (∀ c ∈ comps, '/' ∉ c) → (∀ c ∈ acc, c ≠ [] ∧ '/' ∉ c) →
      ∀ c ∈ comps.foldl
          (fun acc c =>
            if c = [] ∨ c = ['.'] then acc
            else if c = ['.', '.'] then acc.dropLast
            else acc ++ [c]) acc,
        c ≠ [] ∧ '/' ∉ c
  | [], _, _, hacc => by simpa using hacc
  | c0 :: comps, acc, hcomps, hacc => by
    rw [List.foldl_cons]
    apply foldl_normStep_good comps _ (fun c hc => hcomps c (List.mem_cons_of_mem _ hc))
    intro c hc
    by_cases h1 : c0 = [] ∨ c0 = ['.']
    · rw [if_pos h1] at hc
      exact hacc c hc
    · rw [if_neg h1] at hc
      by_cases h2 : c0 = ['.', '.']
      · rw [if_pos h2] at hc
        exact hacc c (List.dropLast_subset _ hc)
      · rw [if_neg h2] at hc
        rcases List.mem_append.mp hc with hmem | hmem
        · exact hacc c hmem
        · have hc0 : c = c0 := by simpa using hmem
          subst hc0
          exact ⟨fun hnil => h1 (Or.inl hnil), hcomps c (List.mem_cons_self _ _)⟩

theorem absComps_good (cwd p : PStr) : ∀ c ∈ absComps cwd p, c ≠ [] ∧ '/' ∉ c := by
  intro c hc
  unfold absComps normComps at hc
  exact foldl_normStep_good (splitSlash (pathJoin2 cwd p)) []
    (fun d hd => mem_splitSlash_no_slash _ d hd) (by simp) c hc

theorem isAbs_eq_false_of_no_slash {c : PStr} (h : '/' ∉ c) : isAbs c = false := by
  cases c with
  | nil => rfl
  | cons x t =>
    have hx : x ≠ '/' := fun he => h (he ▸ List.mem_cons_self _ _)
    simp [isAbs, hx]

theorem isAbs_append {a : PStr} (b : PStr) (h : a ≠ []) : isAbs (a ++ b) = isAbs a := by
  cases a with
  | nil => exact absurd rfl h
  | cons c t => rfl

theorem endsWithSlash_cons {c : Char} {l : PStr} (h : l ≠ []) :
    endsWithSlash (c :: l) = endsWithSlash l := by
  cases l with
  | nil => exact absurd rfl h
  | cons d t => rfl

theorem endsWithSlash_append {xs ys : PStr} (h : ys ≠ []) :
    endsWithSlash (xs ++ ys) = endsWithSlash ys := by
  induction xs with
  | nil => rfl
  | cons x xs ih =>
    rw [List.cons_append,
      endsWithSlash_cons (fun hc => h (List.append_eq_nil.mp hc).2)]
    exact ih

theorem endsWithSlash_of_no_slash : ∀ {b : PStr}, '/' ∉ b → endsWithSlash b = false
  | [], _ => rfl
  | [c], h => by
    have hc : c ≠ '/' := fun he => h (he ▸ List.mem_cons_self _ _)
    simp [endsWithSlash, hc]
  | c :: d :: t, h => by
    rw [endsWithSlash_cons (by simp)]
    exact endsWithSlash_of_no_slash (fun hm => h (List.mem_cons_of_mem _ hm))

theorem foldl_pathJoin2_not_abs :
    ∀ (cs : List PStr) (acc : PStr),
      (∀ c ∈ cs, c ≠ [] ∧ '/' ∉ c) →
      acc ≠ [] → isAbs acc = false → endsWithSlash acc = false →
      isAbs (cs.foldl pathJoin2 acc) = false
  | [], _, _, _, habs, _ => by simpa using habs
  | c :: cs, acc, hcs, hne, habs, hsl => by
    rw [List.foldl_cons]
    obtain ⟨hcne, hcsl⟩ := hcs c (List.mem_cons_self _ _)
    have hcabs : isAbs c = false := isAbs_eq_false_of_no_slash hcsl
    have hstep : pathJoin2 acc c = acc ++ '/' :: c := by
      unfold pathJoin2
      rw [if_neg (by simp [hcabs]), if_neg (by simp [hne, hsl])]
    rw [hstep]
    refine foldl_pathJoin2_not_abs cs _
      (fun d hd => hcs d (List.mem_cons_of_mem _ hd)) (by simp) ?_ ?_
    · rw [isAbs_append _ hne]
      exact habs
    · rw [endsWithSlash_append (by simp : ('/' :: c : PStr) ≠ []),
        endsWithSlash_cons hcne]
      exact endsWithSlash_of_no_slash hcsl

theorem joinAll_not_abs {rel : List PStr} (hgood : ∀ c ∈ rel, c ≠ [] ∧ '/' ∉ c)
    (hne : rel ≠ []) : isAbs (joinAll rel) = false := by
  cases rel with
  | nil => exact absurd rfl hne
  | cons c cs =>
    obtain ⟨hcne, hcsl⟩ := hgood c (List.mem_cons_self _ _)
    unfold joinAll
    exact foldl_pathJoin2_not_abs cs c
      (fun d hd => hgood d (List.mem_cons_of_mem _ hd)) hcne
      (isAbs_eq_false_of_no_slash hcsl) (endsWithSlash_of_no_slash hcsl)

theorem relpath_not_abs (cwd p start : PStr) : isAbs (relpath cwd p start) = false := by
  simp only [relpath]
  split
  · simp [isAbs]
  · next hrel =>
    apply joinAll_not_abs ?_ hrel
    intro c hc
    rcases List.mem_append.mp hc with hmem | hmem
    · have hc2 : c = ['.', '.'] := (List.mem_replicate.mp hmem).2
      subst hc2
      refine ⟨by simp, by simp⟩
    · exact absComps_good cwd p c (List.drop_subset _ _ hmem)

theorem isSafePath_false_of_isAbs {p : PStr} (h : isAbs p = true) (cwd root : PStr) :
    isSafePath cwd root p = false := by
  unfold isSafePath
  have hpj : pathJoin2 root p = p := by
    unfold pathJoin2
    rw [if_pos h]
  have hne : relpath cwd (pathJoin2 root p) root ≠ p := by
    intro he
    have habs := relpath_not_abs cwd (pathJoin2 root p) root
    rw [he, h] at habs
    cases habs
  rw [beq_eq_false_iff_ne.mpr hne, Bool.false_and]

theorem isSafePath_false_of_dotdot {p : PStr} (h : ['.', '.'] ∈ splitSlash p)
    (cwd root : PStr) : isSafePath cwd root p = false := by
  have hdd : hasDotDot p = true :=
    (hasDotDot_iff p).mpr (infix_of_mem_splitSlash p _ h)
  unfold isSafePath
  rw [hdd]
  simp

/-- C1 (code bug): shutting down an agent that has two running jobs reports a
crash result for the first job only.  The `map` in `_agent_shutdown` iterates
the running list while each `_job_ended` call removes the reported job from
that same list, so the iterator skips every second entry; job 2 never receives
any result even though the running list does end up empty. -/
theorem agentShutdown_skips_every_other_job :
    agentShutdown (JMState.mk [true] 5 [[1, 2]] [] false) 0 =
      (JMState.mk [false] 5 [[]] [] false, [Event.jobEnded 1 remoteShutdownCrash]) ∧
    Event.jobEnded 2 remoteShutdownCrash ∉
      (agentShutdown (JMState.mk [true] 5 [[1, 2]] [] false) 0).2 := by
  decide

/-- C2: a submission made while no slot is connected reports exactly one crash
result, whose text explains that no agent is available, straight through the
job-ended path; no `new_job` call is issued to any transport and the submission
is not retried — the state comes back unchanged with that single event. -/
theorem executeJob_no_agent (fails : Nat → Bool) (j : JobId)
    (courseId taskId inputdata : String) (d : Bool) (s : JMState)
    (h : ∀ b ∈ s.agents, b = false) :
    executeJob fails j courseId taskId inputdata d s =
      (s, [Event.jobEnded j noAgentCrash]) ∧
    noAgentCrash.result = "crash" ∧
    noAgentCrash.text =
      some ("There are not any agent available for grading. Please retry later. " ++
        "If this error persists, please contact the course administrator.") := by
  have hsel : selectAgent s = (none, s) :=
    selectAgent_of_empty (availableAgents_of_all_false h)
  refine ⟨?_, rfl, rfl⟩
  rw [executeJob.eq_def]
  split
  · next s1 heq =>
    rw [hsel] at heq
    cases heq
    rfl
  · next a s1 heq =>
    rw [hsel] at heq
    cases heq

/-- Witness for C2. -/
theorem executeJob_no_agent_witness :
    executeJob (fun _ => false) 9 "course" "task" "input" false
        (JMState.mk [false] 0 [[]] [] false) =
      (JMState.mk [false] 0 [[]] [] false, [Event.jobEnded 9 noAgentCrash]) :=
  (executeJob_no_agent (fun _ => false) 9 "course" "task" "input" false
    (JMState.mk [false] 0 [[]] [] false) (by decide)).1

/-- C3: with a fixed nonempty set of connected slots, every window of `N`
consecutive `_select_agent` calls (`N` the number of connected slots, any
starting cursor) returns each connected slot exactly once — the window is a
permutation of the available list, which has no duplicates — the connected set
is untouched by the calls, and with no connected slot the call returns `None`. -/
theorem selectAgent_round_robin (s : JMState) :
    (availableAgents s.agents ≠ [] →
      ((selectCalls (availableAgents s.agents).length s).1).Perm
        ((availableAgents s.agents).map some) ∧
      (selectCalls (availableAgents s.agents).length s).2.agents = s.agents ∧
      (availableAgents s.agents).Nodup) ∧
    (availableAgents s.agents = [] → (selectAgent s).1 = none) := by
  constructor
  · intro hne
    obtain ⟨hfst, hagents⟩ := selectCalls_fst hne (availableAgents s.agents).length s rfl
    refine ⟨?_, hagents, availableAgents_nodup _⟩
    rw [hfst, window_eq_rotate hne]
    exact (List.rotate_perm _ _).map some
  · intro h
    simp [selectAgent_of_empty h]

/-- Witness for C3 on a two-slot pool. -/
theorem selectAgent_round_robin_witness :
    ((selectCalls (availableAgents (JMState.mk [true, true] 0 [[], []] [] false).agents).length
        (JMState.mk [true, true] 0 [[], []] [] false)).1).Perm
      ((availableAgents (JMState.mk [true, true] 0 [[], []] [] false).agents).map some) ∧
    (selectAgent (JMState.mk [false, false] 3 [[], []] [] false)).1 = none := by
  constructor
  · exact ((selectAgent_round_robin (JMState.mk [true, true] 0 [[], []] [] false)).1
      (by decide)).1
  · exact (selectAgent_round_robin (JMState.mk [false, false] 3 [[], []] [] false)).2
      (by decide)

/-- Counterexample to C4: when the remote agent raises an application-level
error, the crash result delivered upstream is the bare dictionary with status
`crash` and no `text` field at all. -/
theorem crash_result_without_text :
    (executeJobCallback (JMState.mk [true] 0 [[7]] [] false) 7
        (AsyncValue.mk true (JobResult.mk "ok" none)) 0).2 =
      [Event.jobEnded 7 (JobResult.mk "crash" none)] ∧
    (JobResult.mk "crash" none).result = "crash" ∧
    (JobResult.mk "crash" none).text = none := by
  decide

/-- C4 as amended: the crash results produced when no agent is available and
when fault recovery fails the jobs of a dead agent both carry a human-readable
text field, but the crash reported when the remote agent raises an
application-level error carries only the status field and no text. -/
theorem crash_results_text (s : JMState) (ret : AsyncValue) (j : JobId) (a : Nat)
    (herr : ret.error = true) :
    noAgentCrash.result = "crash" ∧ noAgentCrash.text.isSome = true ∧
    remoteShutdownCrash.result = "crash" ∧ remoteShutdownCrash.text.isSome = true ∧
    (executeJobCallback s j ret a).2 = [Event.jobEnded j (JobResult.mk "crash" none)] := by
  refine ⟨rfl, rfl, rfl, rfl, ?_⟩
  simp [executeJobCallback, herr, jobEndedOp]

/-- Witness for the amended C4. -/
theorem crash_results_text_witness :
    noAgentCrash.result = "crash" ∧ noAgentCrash.text.isSome = true ∧
    remoteShutdownCrash.result = "crash" ∧ remoteShutdownCrash.text.isSome = true ∧
    (executeJobCallback (JMState.mk [true] 0 [[3]] [] false) 3
        (AsyncValue.mk true (JobResult.mk "ok" none)) 0).2 =
      [Event.jobEnded 3 (JobResult.mk "crash" none)] :=
  crash_results_text (JMState.mk [true] 0 [[3]] [] false)
    (AsyncValue.mk true (JobResult.mk "ok" none)) 3 0 rfl

/-- Counterexample to C5: the file name `a..b` does not escape the task root —
it is relative, has no `..` component, and resolving it against the root and
relativising back returns it unchanged — yet the archive loop omits it and
warns, because the check `".." not in path` matches the substring `..` inside
the name.  So not every safe path is included. -/
theorem buildArchive_omits_safe_path :
    specEscapesRoot "a..b".toList = false ∧
    relpath "/h".toList (pathJoin2 "tasks".toList "a..b".toList) "tasks".toList =
      "a..b".toList ∧
    buildArchive "/h".toList "tasks".toList ["ok".toList, "a..b".toList] =
      (["ok".toList], ["a..b".toList]) := by
  refine ⟨by decide, by decide, by decide⟩

/-- C5 as amended: every path that escapes the task root — an absolute path or
one containing a parent-directory component `..` — fails the check in
`_synchronize_task_dir_p2`, so it is omitted from the archive and recorded in
the warned list, while an archive is always produced, holding exactly the
paths that pass the check.  The check is conservative: it also rejects safe
paths that merely contain consecutive dots or are written non-canonically. -/
theorem buildArchive_safety (cwd root : PStr) (paths : List PStr) :
    (∀ p ∈ paths, specEscapesRoot p = true →
      p ∉ (buildArchive cwd root paths).1 ∧ p ∈ (buildArchive cwd root paths).2) ∧
    (buildArchive cwd root paths).1 = paths.filter (isSafePath cwd root) ∧
    (buildArchive cwd root paths).2 =
      paths.filter (fun p => !(isSafePath cwd root p)) := by
  refine ⟨?_, rfl, rfl⟩
  intro p hp hesc
  have hbad : isSafePath cwd root p = false := by
    rcases Bool.or_eq_true_iff.mp hesc with habs | hdd
    · exact isSafePath_false_of_isAbs habs cwd root
    · exact isSafePath_false_of_dotdot (by simpa using hdd) cwd root
  constructor
  · intro hmem
    have hpred := (List.mem_filter.mp hmem).2
    rw [hbad] at hpred
    cases hpred
  · exact List.mem_filter.mpr ⟨hp, by rw [hbad]; rfl⟩

/-- Witness for the amended C5: a traversal attempt is omitted and warned. -/
theorem buildArchive_safety_witness :
    "../../etc/passwd".toList ∉
      (buildArchive "/h".toList "tasks".toList
        ["ok".toList, "../../etc/passwd".toList]).1 ∧
    "../../etc/passwd".toList ∈
      (buildArchive "/h".toList "tasks".toList
        ["ok".toList, "../../etc/passwd".toList]).2 :=
  (buildArchive_safety "/h".toList "tasks".toList
    ["ok".toList, "../../etc/passwd".toList]).1
    "../../etc/passwd".toList (by decide) (by decide)

/-- C6: a sync cycle that finds a non-empty changed or deleted set replaces the
stored snapshot wholesale with the fresh one and starts a task-directory sync
for every connected slot; a cycle that finds no difference leaves the snapshot
in place and synchronises nobody. -/
theorem trySynchronizeTaskDir_cases (current : Snapshot) (s : JMState)
    (hcl : s.closed = false) :
    ((directoryCompareFromHash current s.lastContent).1 ≠ [] ∨
        (directoryCompareFromHash current s.lastContent).2 ≠ [] →
      trySynchronizeTaskDir current s =
        ({ s with lastContent := current },
          (availableAgents s.agents).map Event.syncOne)) ∧
    ((directoryCompareFromHash current s.lastContent).1 = [] ∧
        (directoryCompareFromHash current s.lastContent).2 = [] →
      trySynchronizeTaskDir current s = (s, [])) := by
  constructor
  · intro h
    have hlen : (directoryCompareFromHash current s.lastContent).1.length ≠ 0 ∨
        (directoryCompareFromHash current s.lastContent).2.length ≠ 0 := by
      rcases h with h | h
      · exact Or.inl (by simpa [List.length_eq_zero] using h)
      · exact Or.inr (by simpa [List.length_eq_zero] using h)
    unfold trySynchronizeTaskDir
    rw [if_neg (by rw [hcl]; exact Bool.false_ne_true), if_pos hlen]
  · rintro ⟨h1, h2⟩
    unfold trySynchronizeTaskDir
    rw [if_neg (by rw [hcl]; exact Bool.false_ne_true), if_neg (by simp [h1, h2])]

/-- Witness for C6, one changed file and one connected slot out of two. -/
theorem trySynchronizeTaskDir_witness :
    trySynchronizeTaskDir [("a", "h2")]
        (JMState.mk [true, false] 0 [[], []] [("a", "h1")] false) =
      (JMState.mk [true, false] 0 [[], []] [("a", "h2")] false,
        [Event.syncOne 0]) := by
  have := (trySynchronizeTaskDir_cases [("a", "h2")]
    (JMState.mk [true, false] 0 [[], []] [("a", "h1")] false) rfl).1
    (by decide)
  simpa using this

/-- C7: when issuing the remote call on the chosen slot raises a transport
exception, `_agent_shutdown` runs for that slot — leaving it disconnected with
an empty running list — and the whole submission re-enters `_execute_job` with
the same job id, course id, task id, input and debug flag; the recursive call
carries no attempt counter, so the retry is not bounded by any parameter. -/
theorem executeJob_transport_failure (fails : Nat → Bool) (j : JobId)
    (courseId taskId inputdata : String) (d : Bool) (s : JMState) (a : Nat)
    (hsel : (selectAgent s).1 = some a) (hf : fails a = true) :
    executeJob fails j courseId taskId inputdata d s =
      ((executeJob fails j courseId taskId inputdata d
          (agentShutdown (selectAgent s).2 a).1).1,
        (agentShutdown (selectAgent s).2 a).2 ++
          (executeJob fails j courseId taskId inputdata d
            (agentShutdown (selectAgent s).2 a).1).2) ∧
    (agentShutdown (selectAgent s).2 a).1.agents.getD a false = false ∧
    (agentShutdown (selectAgent s).2 a).1.runningOnAgent.getD a [] = [] := by
  refine ⟨?_, ?_, ?_⟩
  · conv_lhs => rw [executeJob.eq_def]
    split
    · next s1 heq =>
      rw [heq] at hsel
      simp at hsel
    · next a' s1 heq =>
      have ha : a' = a := by
        have := congrArg Prod.fst heq
        simp only at this
        rw [this] at hsel
        exact Option.some_injective _ hsel
      have hs1 : s1 = (selectAgent s).2 := by
        have := congrArg Prod.snd heq
        simp only at this
        exact this.symm
      subst ha
      subst hs1
      simp [hf]
  · exact getD_set_self _ a false
  · exact getD_set_self _ a []

/-- Witness for C7 on a one-slot pool whose only dispatch attempt fails. -/
theorem executeJob_transport_failure_witness :
    (agentShutdown (selectAgent (JMState.mk [true] 0 [[]] [] false)).2 0).1.agents.getD 0 false
        = false ∧
    (agentShutdown (selectAgent (JMState.mk [true] 0 [[]] [] false)).2 0).1.runningOnAgent.getD
        0 [] = [] :=
  ⟨(executeJob_transport_failure (fun _ => true) 4 "c" "t" "i" false
      (JMState.mk [true] 0 [[]] [] false) 0 (by decide) rfl).2.1,
   (executeJob_transport_failure (fun _ => true) 4 "c" "t" "i" false
      (JMState.mk [true] 0 [[]] [] false) 0 (by decide) rfl).2.2⟩

/-- C8: `changed` is exactly the set of paths present in `current` whose hash
differs from the baseline entry or that the baseline lacks, `deleted` exactly
the set of paths present in `baseline` but absent from `current`, and the diff
of a snapshot with itself is empty on both sides.  Snapshot key lists are
duplicate-free, as the originals are Python dicts. -/
theorem directoryCompare_spec (cur base : Snapshot)
    (hc : (cur.map Prod.fst).Nodup) (hb : (base.map Prod.fst).Nodup) :
    (∀ p, p ∈ (directoryCompareFromHash cur base).1 ↔
        ∃ h, cur.lookup p = some h ∧ ¬ base.lookup p = some h) ∧
    (∀ p, p ∈ (directoryCompareFromHash cur base).2 ↔
        (∃ h, base.lookup p = some h) ∧ cur.lookup p = none) ∧
    directoryCompareFromHash cur cur = ([], []) := by
  refine ⟨?_, ?_, ?_⟩
  · intro p
    simp only [directoryCompareFromHash, List.mem_map, List.mem_filter]
    constructor
    · rintro ⟨⟨q, h⟩, ⟨hmem, hpred⟩, rfl⟩
      refine ⟨h, (lookup_eq_some_of_nodup hc q h).mp hmem, ?_⟩
      simpa using hpred
    · rintro ⟨h, hcur, hbase⟩
      exact ⟨(p, h), ⟨(lookup_eq_some_of_nodup hc p h).mpr hcur, by simpa using hbase⟩, rfl⟩
  · intro p
    simp only [directoryCompareFromHash, List.mem_map, List.mem_filter]
    constructor
    · rintro ⟨⟨q, h⟩, ⟨hmem, hpred⟩, rfl⟩
      refine ⟨⟨h, (lookup_eq_some_of_nodup hb q h).mp hmem⟩, ?_⟩
      simpa [Option.isNone_iff_eq_none] using hpred
    · rintro ⟨⟨h, hbase⟩, hcur⟩
      exact ⟨(p, h), ⟨(lookup_eq_some_of_nodup hb p h).mpr hbase,
        by simpa [Option.isNone_iff_eq_none] using hcur⟩, rfl⟩
  · have h1 : cur.filter (fun pr => !(cur.lookup pr.1 == some pr.2)) = [] := by
      apply List.filter_eq_nil_iff.mpr
      rintro ⟨q, h⟩ hmem
      simp [(lookup_eq_some_of_nodup hc q h).mp hmem]
    have h2 : cur.filter (fun pr => (cur.lookup pr.1).isNone) = [] := by
      apply List.filter_eq_nil_iff.mpr
      rintro ⟨q, h⟩ hmem
      simp [(lookup_eq_some_of_nodup hc q h).mp hmem]
    simp [directoryCompareFromHash, h1, h2]

/-- Witness for C8: the self-diff of a concrete two-file snapshot is empty. -/
theorem directoryCompare_spec_witness :
    directoryCompareFromHash [("a", "h1"), ("b", "h2")] [("a", "h1"), ("b", "h2")] =
      ([], []) :=
  (directoryCompare_spec [("a", "h1"), ("b", "h2")] [("a", "h1"), ("b", "h2")]
    (by decide) (by decide)).2.2

/-- C9: along every sequence of dispatcher and fault-recovery operations from
the initial bookkeeping (all running lists empty, as set up in `__init__`),
every job id sits in the running list of at most one slot, and no running list
holds the same job id twice. -/
theorem running_sets_invariant (s0 s : JMState)
    (h0 : ∀ l ∈ s0.runningOnAgent, l = [])
    (hsteps : Relation.ReflTransGen Step s0 s) :
    DisjointSlots s.runningOnAgent ∧ NodupSlots s.runningOnAgent := by
  induction hsteps with
  | refl =>
    constructor
    · intro i j jid hi hj
      obtain ⟨l, hl, hjl⟩ := exists_mem_of_mem_getD hi
      rw [h0 l hl] at hjl
      simp at hjl
    · intro l hl
      rw [h0 l hl]
      simp
  | tail hab hbc ih => exact step_preserves hbc ih.1 ih.2

/-- Witness for C9: one dispatch of a fresh job on a two-slot pool. -/
theorem running_sets_invariant_witness :
    DisjointSlots (executeJob (fun _ => false) 1 "c1" "t1" "in" false
        (JMState.mk [true, true] 0 [[], []] [] false)).1.runningOnAgent ∧
    NodupSlots (executeJob (fun _ => false) 1 "c1" "t1" "in" false
        (JMState.mk [true, true] 0 [[], []] [] false)).1.runningOnAgent :=
  running_sets_invariant (JMState.mk [true, true] 0 [[], []] [] false) _
    (by decide)
    (Relation.ReflTransGen.single
      (Step.exec (fun _ => false) 1 "c1" "t1" "in" false
        (JMState.mk [true, true] 0 [[], []] [] false)
        (by unfold FreshJob; decide)))

/-- C10: calling `_select_agent` with every agent entry `None` returns `None`
and leaves the whole state — in particular the round-robin cursor and every
running list — unchanged: the cursor increment sits after the early return. -/
theorem selectAgent_empty_frame (s : JMState) (h : ∀ b ∈ s.agents, b = false) :
    selectAgent s = (none, s) :=
  selectAgent_of_empty (availableAgents_of_all_false h)

/-- Witness for C10. -/
theorem selectAgent_empty_frame_witness :
    selectAgent (JMState.mk [false, false] 7 [[3], []] [("a", "h")] false) =
      (none, JMState.mk [false, false] 7 [[3], []] [("a", "h")] false) :=
  selectAgent_empty_frame _ (by decide)

end RemoteManualAgent
